import Mathlib

/-!
Verification of the CPE candidate-generation module (`syft/pkg/cataloger/cpe.go`).

Strings are modelled as lists of characters (`Str`), candidate lists as `List Str`,
and the generated platform identifiers as a `CPE` structure mirroring the
`wfn.Attributes` fields this module sets.  All definitions are translated from the
Go source; the few places where the deciding code lives outside the provided
source (the URL host/path split from the standard library, the excluded group-ID
constants, the wildcard sentinel of the attribute library, and the specificity
comparator `ByCPESpecificity`) are modelled from the specification and marked as
such in their doc comments.
-/

namespace SyftCpe

/-- Strings as character lists (Go strings, restricted to the ASCII data the module handles). -/
abbrev Str : Type := List Char

/-- Literal helper: a Lean string literal as a `Str`. -/
def str (s : String) : Str := s.toList

/-- `trimHyphenOrUnderscore` from the source: the characters trimmed/split on. -/
def trimHyphenOrUnderscore (r : Char) : Bool :=
  r = '-' || r = '_'

/-- Go `strings.TrimFunc`: trims characters satisfying `p` from both ends. -/
def trimBy (p : Char → Bool) (s : Str) : Str :=
  ((s.dropWhile p).reverse.dropWhile p).reverse

/-- Go `strings.ToLower` (ASCII range, which is all this module compares). -/
def lowerStr (s : Str) : Str := s.map Char.toLower

/-- Go `strings.Contains`: whether `sub` occurs as a contiguous substring of `s`. -/
def substrIn : Str → Str → Bool
  | [], sub => sub.isEmpty
  | s@(_ :: rest), sub => sub.isPrefixOf s || substrIn rest sub

/-- Modelled from the spec: `internal.HasAnyOfPrefixes` (not under the provided source
tree) — whether the string starts with any of the given prefixes; the spec phrases its
uses as "the string does not start with com or org" and as matching the fixed
exclusion-list namespaces. -/
def hasAnyOfPrefixes (s : Str) (pres : List Str) : Bool :=
  pres.any (fun pre => pre.isPrefixOf s)

/-- Go `strings.Split` with a one-character separator (`"/"` and `"."` in the source).
Splitting the empty string yields `[[]]`, as in Go. -/
def splitOnChar (c : Char) : Str → List Str
  | [] => [[]]
  | x :: xs =>
    match splitOnChar c xs with
    | [] => [[]]
    | r :: rs => if x = c then [] :: r :: rs else (x :: r) :: rs

/-- Go `strings.ReplaceAll` with a one-character pattern (`"-"` and `"_"` in the source). -/
def replaceAllChar (c : Char) (repl : Str) (s : Str) : Str :=
  s.foldr (fun x acc => if x = c then repl ++ acc else x :: acc) []

/-- Worker for `removeDuplicateValues`: `obs` is the set of already-observed values. -/
def rdvAux : List Str → List Str → List Str
  | [], _ => []
  | x :: xs, obs => if x ∈ obs then rdvAux xs obs else x :: rdvAux xs (x :: obs)

/-- `removeDuplicateValues` from the source: keep the first occurrence of each value,
preserving order. -/
def removeDuplicateValues (values : List Str) : List Str :=
  rdvAux values []

/-- The per-field body of `normalizeAllSeparators`: the original value, then the
hyphen variants (if a hyphen is present), then the underscore variants (if an
underscore is present). -/
def normalizeOne (field : Str) : List Str :=
  [field]
    ++ (if field.contains '-' then
          [replaceAllChar '-' (str "_") field, replaceAllChar '-' [] field]
        else [])
    ++ (if field.contains '_' then
          [replaceAllChar '_' (str "-") field, replaceAllChar '_' [] field]
        else [])

/-- `normalizeAllSeparators` from the source. -/
def normalizeAllSeparators (fields : List Str) : List Str :=
  fields.flatMap normalizeOne

/-- The tokenisation performed by `bufio.Scanner` with `scanHyphenOrUnderscore`:
chunks end with (and include) a hyphen/underscore; a trailing run of non-separator
characters forms a final chunk; leftover empty input produces no token.
`acc` is the current chunk, reversed. -/
def splitKeepSepAux (acc : Str) : Str → List Str
  | [] => if acc = [] then [] else [acc.reverse]
  | x :: xs =>
    if trimHyphenOrUnderscore x then (acc.reverse ++ [x]) :: splitKeepSepAux [] xs
    else splitKeepSepAux (x :: acc) xs

/-- The scanner loop of `generateSubSelections`: carries the accumulated results and
the separator that ended the previous raw token (`lastToken`, initially the zero
byte as in Go). An empty raw token stops the loop; an empty-after-trim candidate is
skipped but the loop continues. -/
def subSelGo : List Str → List Str → Char → List Str
  | [], results, _ => results
  | raw :: rest, results, lastToken =>
    if raw = [] then results
    else
      let candidate := trimBy trimHyphenOrUnderscore raw
      let results' :=
        if candidate = [] then results
        else if results = [] then [candidate]
        else results ++ [results.getLastD [] ++ lastToken :: candidate]
      subSelGo rest results' (raw.getLastD lastToken)

/-- `generateSubSelections` from the source. -/
def generateSubSelections (field : Str) : List Str :=
  subSelGo (splitKeepSepAux [] field) [] (Char.ofNat 0)

/-- `generateAllSubSelections` from the source. -/
def generateAllSubSelections (fields : List Str) : List Str :=
  fields.flatMap generateSubSelections

/-- The package languages this module dispatches on (`pkg.Language`). -/
inductive Language where
  | java | javascript | ruby | python | go | unknownLang
deriving DecidableEq, Repr

/-- The package types this module dispatches on (`pkg.Type`). -/
inductive PkgType where
  | javaPkg | jenkinsPluginPkg | npmPkg | gemPkg | pythonPkg | goModulePkg | unknownType
deriving DecidableEq, Repr

/-- `pkg.MetadataType` as far as this module inspects it. -/
inductive MetadataType where
  | javaMetadataType | noMetadataType
deriving DecidableEq, Repr

/-- The `PomProperties` fields this module reads. -/
structure PomProperties where
  groupID : Str
deriving DecidableEq, Repr

/-- The `pkg.JavaMetadata` fields this module reads (`PomProperties` is a pointer,
hence optional). -/
structure JavaMetadata where
  pomProperties : Option PomProperties
deriving DecidableEq, Repr

/-- The dynamic metadata blob of a package; the source type-asserts it to
`pkg.JavaMetadata`. -/
inductive Metadata where
  | javaMeta (m : JavaMetadata)
  | absent
deriving DecidableEq, Repr

/-- The package record fields this module reads. -/
structure Package where
  name : Str
  version : Str
  language : Language
  type : PkgType
  metadataType : MetadataType
  metadata : Metadata
deriving DecidableEq, Repr

/-- `productCandidatesByPkgType.getCandidates`: the static override table from the
source, as a lookup function; missing type or key yields the empty list (Go `nil`). -/
def getCandidates (t : PkgType) (key : Str) : List Str :=
  match t with
  | .javaPkg =>
    if key = str "springframework" then [str "spring_framework", str "springsource_spring_framework"]
    else if key = str "spring-core" then [str "spring_framework", str "springsource_spring_framework"]
    else []
  | .npmPkg =>
    if key = str "hapi" then [str "hapi_server_framework"]
    else if key = str "handlebars.js" then [str "handlebars"]
    else if key = str "is-my-json-valid" then [str "is_my_json_valid"]
    else if key = str "mustache" then [str "mustache.js"]
    else []
  | .gemPkg =>
    if key = str "Arabic-Prawn" then [str "arabic_prawn"]
    else if key = str "bio-basespace-sdk" then [str "basespace_ruby_sdk"]
    else if key = str "cremefraiche" then [str "creme_fraiche"]
    else if key = str "html-sanitizer" then [str "html_sanitizer"]
    else if key = str "sentry-raven" then [str "raven-ruby"]
    else if key = str "RedCloth" then [str "redcloth_library"]
    else if key = str "VladTheEnterprising" then [str "vladtheenterprising"]
    else if key = str "yajl-ruby" then [str "yajl-ruby_gem"]
    else []
  | .pythonPkg =>
    if key = str "python-rrdtool" then [str "rrdtool"]
    else []
  | _ => []

/-- Modelled from the spec: the wildcard sentinel `wfn.Any` of the external
attribute-tuple library — "a distinguished sentinel value ('any'), distinct from
empty string". -/
def wfnAny : Str := str "*"

/-- The identifier tuple: the `wfn.Attributes` fields this module sets
(all other fields stay at the wildcard default). -/
structure CPE where
  part : Str
  vendor : Str
  product : Str
  version : Str
  targetSW : Str
deriving DecidableEq, Repr

/-- `newCPE` from the source: all other fields wildcard, part fixed to "a". -/
def newCPE (product vendor version targetSW : Str) : CPE :=
  { part := str "a", vendor := vendor, product := product,
    version := version, targetSW := targetSW }

/-- The deduplication key of `generatePackageCPEs`:
`fmt.Sprintf("%s|%s|%s|%s", product, vendor, version, targetSw)`. -/
def cpeKey (product vendor version targetSW : Str) : Str :=
  product ++ '|' :: vendor ++ '|' :: version ++ '|' :: targetSW

/-- The key of a constructed identifier, as used by the generation loop. -/
def keyOf (c : CPE) : Str :=
  cpeKey c.product c.vendor c.version c.targetSW

/-- Modelled from the spec: `pkg.JiraPluginPomPropertiesGroupID` and
`pkg.JenkinsPluginPomPropertiesGroupIDs` (constants outside the provided source
tree) — "a fixed exclusion list of known plugin-framework group identifiers (e.g.,
issue-tracker and CI-server plugin namespaces)". -/
def excludedGroupIDs : List Str :=
  [str "com.atlassian.jira.plugins",
   str "com.cloudbees.jenkins.plugins",
   str "org.jenkins-ci.plugins",
   str "org.jvnet.hudson.plugins"]

/-- `shouldConsiderGroupID` from the source: empty group IDs and those starting with
an excluded plugin-framework namespace are rejected. -/
def shouldConsiderGroupID (groupID : Str) : Bool :=
  if groupID = [] then false
  else !(hasAnyOfPrefixes groupID excludedGroupIDs)

/-- `groupIDFromPomProperties` from the source: the type assertion on the metadata
blob and the nil-pointer check become matches. -/
def groupIDFromPomProperties (p : Package) : Str :=
  match p.metadata with
  | .javaMeta m =>
    match m.pomProperties with
    | some pp => pp.groupID
    | none => []
  | .absent => []

/-- The body of `productAndVendorFromPomPropertiesGroupID` after the group ID has
been extracted from the package. -/
def productAndVendorFromGroupID (groupID : Str) : Str × Str :=
  if !(shouldConsiderGroupID groupID) then ([], [])
  else if !(hasAnyOfPrefixes groupID [str "com", str "org"]) then ([], [])
  else if (splitOnChar '.' groupID).length < 3 then ([], [])
  else ((splitOnChar '.' groupID).getD 2 [], (splitOnChar '.' groupID).getD 1 [])

/-- `productAndVendorFromPomPropertiesGroupID` from the source. -/
def productAndVendorFromPomPropertiesGroupID (p : Package) : Str × Str :=
  productAndVendorFromGroupID (groupIDFromPomProperties p)

/-- `candidateProductsForJava` from the source, including the discard of a derived
"jenkins" product on Jenkins-plugin packages. -/
def candidateProductsForJava (p : Package) : List Str :=
  if (productAndVendorFromPomPropertiesGroupID p).1 ≠ [] then
    if p.type = .jenkinsPluginPkg ∧
        lowerStr (productAndVendorFromPomPropertiesGroupID p).1 = str "jenkins" then []
    else [(productAndVendorFromPomPropertiesGroupID p).1]
  else []

/-- `candidateVendorsForJava` from the source. -/
def candidateVendorsForJava (p : Package) : List Str :=
  if (productAndVendorFromPomPropertiesGroupID p).2 ≠ [] then
    [(productAndVendorFromPomPropertiesGroupID p).2]
  else []

/-- Modelled from the spec: the host part of `url.Parse("http://" + name)` — "treat
the package name as a URL path by prefixing an arbitrary scheme, then parse host and
path segments".  The host is everything before the first slash. -/
def goNameHost (name : Str) : Str := name.takeWhile (fun c => c ≠ '/')

/-- Modelled from the spec: the path part of `url.Parse("http://" + name)` — the
remainder of the name starting at the first slash. -/
def goNamePath (name : Str) : Str := name.dropWhile (fun c => c ≠ '/')

/-- The trimmed path of a Go module name: `strings.Trim(u.Path, "/")`. -/
def goCleanPath (name : Str) : Str :=
  trimBy (fun c => c = '/') (goNamePath name)

/-- The path segments of a Go module name: `strings.Split(cleanPath, "/")`. -/
def goPathElements (name : Str) : List Str :=
  splitOnChar '/' (goCleanPath name)

/-- `candidateProductForGo` from the source; the empty string encodes Go's
"no product" result. -/
def candidateProductForGo (name : Str) : Str :=
  if goNameHost name = str "golang.org" ∨ goNameHost name = str "gopkg.in" then
    goCleanPath name
  else if goNameHost name = str "google.golang.org" then (goPathElements name).getD 0 []
  else if (goPathElements name).length < 2 then []
  else (goPathElements name).getD 1 []

/-- `candidateVendorForGo` from the source; the empty string encodes Go's
"no vendor" result. -/
def candidateVendorForGo (name : Str) : Str :=
  if goNameHost name = str "google.golang.org" then str "google"
  else if goNameHost name = str "golang.org" then str "golang"
  else if goNameHost name = str "gopkg.in" then []
  else if (goPathElements name).length < 2 then []
  else (goPathElements name).getD 0 []

/-- `candidateTargetSoftwareAttrsForJava` from the source. -/
def candidateTargetSoftwareAttrsForJava (p : Package) : List Str :=
  if p.type = .jenkinsPluginPkg then [str "jenkins", str "cloudbees_jenkins"]
  else [str "java", str "maven"]

/-- `candidateTargetSoftwareAttrs` from the source. -/
def candidateTargetSoftwareAttrs (p : Package) : List Str :=
  match p.language with
  | .java => candidateTargetSoftwareAttrsForJava p
  | .javascript => [str "node.js", str "nodejs"]
  | .ruby => [str "ruby", str "rails"]
  | .python => [str "python"]
  | .go => [str "go", str "golang"]
  | .unknownLang => []

/-- The override-table lookup performed by `candidateProducts`. -/
def productOverrides (p : Package) : List Str :=
  getCandidates p.type p.name

/-- The product list of `candidateProducts` before normalisation: the package name
plus the ecosystem-specific augmentation (the Go switch cases, in source order:
Python first, then Java metadata, then Go). -/
def baseProducts (p : Package) : List Str :=
  if p.language = .python then
    if !((str "python").isPrefixOf p.name) then [p.name, str "python-" ++ p.name]
    else [p.name]
  else if p.metadataType = .javaMetadataType then
    p.name :: candidateProductsForJava p
  else if p.language = .go then
    if candidateProductForGo p.name = [] then [] else [candidateProductForGo p.name]
  else [p.name]

/-- `candidateProducts` from the source: augment, normalise separators, prepend the
override aliases, remove duplicates. -/
def candidateProducts (p : Package) : List Str :=
  removeDuplicateValues (productOverrides p ++ normalizeAllSeparators (baseProducts p))

/-- The vendor list of `candidateVendors` before normalisation: the full product
candidate list, with the ecosystem-specific switch applied (Java metadata appends
the derived vendor; Go replaces everything with the Go vendor helper). -/
def vendorBase (p : Package) : List Str :=
  match p.language with
  | .java =>
    if p.metadataType = .javaMetadataType then candidateProducts p ++ candidateVendorsForJava p
    else candidateProducts p
  | .go =>
    if candidateVendorForGo p.name = [] then [] else [candidateVendorForGo p.name]
  | _ => candidateProducts p

/-- `candidateVendors` from the source: normalise separators, expand sub-selections,
remove duplicates. -/
def candidateVendors (p : Package) : List Str :=
  removeDuplicateValues (generateAllSubSelections (normalizeAllSeparators (vendorBase p)))

/-- The first entry of `cpeFilters`: drop product "jira" on client-named packages
when the vendor is the wildcard, "jira", or "atlassian". -/
def filterJiraClient (cpe : CPE) (p : Package) : Bool :=
  if cpe.product = str "jira" ∧ substrIn (lowerStr p.name) (str "client") then
    if cpe.vendor = wfnAny ∨ cpe.vendor = str "jira" ∨ cpe.vendor = str "atlassian" then true
    else false
  else false

/-- The second entry of `cpeFilters`: drop product "jenkins" on packages whose name
does not contain "jenkins" when the vendor is the wildcard, "jenkins", or
"cloudbees". -/
def filterJenkinsName (cpe : CPE) (p : Package) : Bool :=
  if cpe.product = str "jenkins" ∧ !(substrIn (lowerStr p.name) (str "jenkins")) then
    if cpe.vendor = wfnAny ∨ cpe.vendor = str "jenkins" ∨ cpe.vendor = str "cloudbees" then true
    else false
  else false

/-- `cpeFilters` from the source. -/
def cpeFilters : List (CPE → Package → Bool) :=
  [filterJiraClient, filterJenkinsName]

/-- `filterCPEs` from the source: keep an identifier iff no filter matches it. -/
def filterCPEs (cpes : List CPE) (p : Package) (filters : List (CPE → Package → Bool)) :
    List CPE :=
  cpes.filter (fun c => !(filters.any (fun fn => fn c p)))

/-- The iteration order of the generation loop: products outermost, then vendors,
then target-software values. -/
def genTriples (products vendors targetSws : List Str) : List (Str × Str × Str) :=
  products.flatMap (fun product =>
    vendors.flatMap (fun vendor =>
      targetSws.map (fun targetSw => (product, vendor, targetSw))))

/-- The dedup-and-construct loop of `generatePackageCPEs`: `keys` is the observed
key set (`internal.NewStringSet`). -/
def dedupCPEs (version : Str) : List (Str × Str × Str) → List Str → List CPE
  | [], _ => []
  | (product, vendor, targetSw) :: rest, keys =>
    let key := cpeKey product vendor version targetSw
    if key ∈ keys then dedupCPEs version rest keys
    else newCPE product vendor version targetSw :: dedupCPEs version rest (key :: keys)

/-- Modelled from the spec: the number of wildcard fields of an identifier, the
specificity measure of §4.7 ("fewer wildcard fields sort earlier"); the part field
is the constant "a" and does not contribute. -/
def wcCount (c : CPE) : Nat :=
  (if c.vendor = wfnAny then 1 else 0) + (if c.product = wfnAny then 1 else 0)
    + (if c.version = wfnAny then 1 else 0) + (if c.targetSW = wfnAny then 1 else 0)

/-- Modelled from the spec: the insertion step of the stable specificity sort —
a new identifier goes after every strictly more specific one and before the first
equally or less specific one, so equal specificity preserves insertion order. -/
def insertCPE (c : CPE) : List CPE → List CPE
  | [] => [c]
  | d :: ds => if wcCount d < wcCount c then d :: insertCPE c ds else c :: d :: ds

/-- Modelled from the spec: `sort.Sort(ByCPESpecificity(cpes))` — the comparator
`ByCPESpecificity` is outside the provided source tree; §4.7 specifies a pure,
stable ordering by specificity (fewer wildcard fields first, ties in insertion
order), realised here as a stable insertion sort on the wildcard count. -/
def sortCPEs : List CPE → List CPE
  | [] => []
  | c :: cs => insertCPE c (sortCPEs cs)

/-- The identifier list of `generatePackageCPEs` after generation, deduplication and
exclusion filtering, before the specificity sort. -/
def survivors (p : Package) : List CPE :=
  filterCPEs
    (dedupCPEs p.version
      (genTriples (candidateProducts p) (candidateVendors p)
        (wfnAny :: candidateTargetSoftwareAttrs p)) [])
    p cpeFilters

/-- `generatePackageCPEs` from the source. -/
def generatePackageCPEs (p : Package) : List CPE :=
  if candidateProducts p = [] then []
  else sortCPEs (survivors p)

/-! ### Helper lemmas about the list plumbing -/

theorem mem_rdvAux {s : Str} : ∀ {l obs : List Str}, s ∈ rdvAux l obs ↔ s ∈ l ∧ s ∉ obs
  | [], obs => by simp [rdvAux]
  | x :: xs, obs => by
    by_cases hx : x ∈ obs
    · rw [rdvAux, if_pos hx, mem_rdvAux]
      constructor
      · rintro ⟨h1, h2⟩
        exact ⟨List.mem_cons_of_mem _ h1, h2⟩
      · rintro ⟨h1, h2⟩
        rcases List.mem_cons.1 h1 with rfl | h1
        · exact absurd hx h2
        · exact ⟨h1, h2⟩
    · rw [rdvAux, if_neg hx]
      constructor
      · intro h
        rcases List.mem_cons.1 h with rfl | h
        · exact ⟨List.mem_cons_self _ _, hx⟩
        · rcases mem_rdvAux.1 h with ⟨h1, h2⟩
          refine ⟨List.mem_cons_of_mem _ h1, fun hobs => h2 (List.mem_cons_of_mem _ hobs)⟩
      · rintro ⟨h1, h2⟩
        rcases List.mem_cons.1 h1 with rfl | h1
        · exact List.mem_cons_self _ _
        · by_cases hsx : s = x
          · subst hsx; exact List.mem_cons_self _ _
          · exact List.mem_cons_of_mem _
              (mem_rdvAux.2 ⟨h1, fun hm => by
                rcases List.mem_cons.1 hm with h | h
                · exact hsx h
                · exact h2 h⟩)

theorem nodup_rdvAux : ∀ (l obs : List Str), (rdvAux l obs).Nodup
  | [], _ => List.nodup_nil
  | x :: xs, obs => by
    by_cases hx : x ∈ obs
    · rw [rdvAux, if_pos hx]
      exact nodup_rdvAux xs obs
    · rw [rdvAux, if_neg hx]
      refine List.nodup_cons.2 ⟨fun hmem => ?_, nodup_rdvAux xs (x :: obs)⟩
      exact (mem_rdvAux.1 hmem).2 (List.mem_cons_self _ _)

theorem mem_removeDuplicateValues {s : Str} {l : List Str} :
    s ∈ removeDuplicateValues l ↔ s ∈ l := by
  rw [removeDuplicateValues, mem_rdvAux]
  simp

theorem nodup_removeDuplicateValues (l : List Str) : (removeDuplicateValues l).Nodup :=
  nodup_rdvAux l []

theorem self_mem_normalizeOne (field : Str) : field ∈ normalizeOne field := by
  rw [normalizeOne]
  exact List.mem_append_left _ (List.mem_append_left _ (List.mem_singleton.2 rfl))

theorem mem_normalizeAllSeparators_of_mem {s : Str} {fields : List Str} (h : s ∈ fields) :
    s ∈ normalizeAllSeparators fields := by
  rw [normalizeAllSeparators]
  exact List.mem_flatMap.2 ⟨s, h, self_mem_normalizeOne s⟩

theorem genTriples_vendors_nil (products targetSws : List Str) :
    genTriples products [] targetSws = [] := by
  simp [genTriples]

/-! ### Helper lemmas about the generation loop -/

theorem version_of_mem_dedupCPEs {v : Str} {c : CPE} :
    ∀ {triples : List (Str × Str × Str)} {keys : List Str},
      c ∈ dedupCPEs v triples keys → c.version = v
  | [], _ => by simp [dedupCPEs]
  | (product, vendor, targetSw) :: rest, keys => by
    rw [dedupCPEs]
    by_cases hk : cpeKey product vendor v targetSw ∈ keys
    · rw [if_pos hk]
      exact version_of_mem_dedupCPEs
    · rw [if_neg hk]
      intro hmem
      rcases List.mem_cons.1 hmem with rfl | hmem
      · rfl
      · exact version_of_mem_dedupCPEs hmem

theorem keyOf_newCPE (product vendor version targetSw : Str) :
    keyOf (newCPE product vendor version targetSw) = cpeKey product vendor version targetSw := rfl

theorem key_notin_of_mem_dedupCPEs {v : Str} {c : CPE} :
    ∀ {triples : List (Str × Str × Str)} {keys : List Str},
      c ∈ dedupCPEs v triples keys → keyOf c ∉ keys
  | [], _ => by simp [dedupCPEs]
  | (product, vendor, targetSw) :: rest, keys => by
    rw [dedupCPEs]
    by_cases hk : cpeKey product vendor v targetSw ∈ keys
    · rw [if_pos hk]
      exact key_notin_of_mem_dedupCPEs
    · rw [if_neg hk]
      intro hmem
      rcases List.mem_cons.1 hmem with rfl | hmem
      · rw [keyOf_newCPE]; exact hk
      · intro hin
        exact key_notin_of_mem_dedupCPEs hmem (List.mem_cons_of_mem _ hin)

theorem pairwise_keys_dedupCPEs {v : Str} :
    ∀ (triples : List (Str × Str × Str)) (keys : List Str),
      (dedupCPEs v triples keys).Pairwise (fun a b => keyOf a ≠ keyOf b)
  | [], _ => by simp [dedupCPEs]
  | (product, vendor, targetSw) :: rest, keys => by
    rw [dedupCPEs]
    by_cases hk : cpeKey product vendor v targetSw ∈ keys
    · rw [if_pos hk]
      exact pairwise_keys_dedupCPEs rest keys
    · rw [if_neg hk]
      refine List.pairwise_cons.2 ⟨fun b hb => ?_, pairwise_keys_dedupCPEs rest _⟩
      intro heq
      have hnotin := key_notin_of_mem_dedupCPEs hb
      rw [keyOf_newCPE] at heq
      exact hnotin (heq ▸ List.mem_cons_self _ _)

/-! ### Helper lemmas about the specificity sort -/

theorem perm_insertCPE (c : CPE) : ∀ (l : List CPE), List.Perm (insertCPE c l) (c :: l)
  | [] => List.Perm.refl _
  | d :: ds => by
    rw [insertCPE]
    by_cases h : wcCount d < wcCount c
    · rw [if_pos h]
      exact ((perm_insertCPE c ds).cons d).trans (List.Perm.swap c d ds)
    · rw [if_neg h]

theorem perm_sortCPEs : ∀ (l : List CPE), List.Perm (sortCPEs l) l
  | [] => List.Perm.refl _
  | c :: cs => (perm_insertCPE c (sortCPEs cs)).trans ((perm_sortCPEs cs).cons c)

theorem mem_insertCPE {c d : CPE} {l : List CPE} (h : d ∈ insertCPE c l) :
    d = c ∨ d ∈ l := by
  have := (perm_insertCPE c l).mem_iff.1 h
  rcases List.mem_cons.1 this with h | h
  · exact Or.inl h
  · exact Or.inr h

theorem pairwise_le_insertCPE {c : CPE} :
    ∀ {l : List CPE}, l.Pairwise (fun a b => wcCount a ≤ wcCount b) →
      (insertCPE c l).Pairwise (fun a b => wcCount a ≤ wcCount b)
  | [], _ => List.pairwise_singleton _ _
  | d :: ds, hp => by
    rcases List.pairwise_cons.1 hp with ⟨hd, hds⟩
    rw [insertCPE]
    by_cases h : wcCount d < wcCount c
    · rw [if_pos h]
      refine List.pairwise_cons.2 ⟨fun b hb => ?_, pairwise_le_insertCPE hds⟩
      rcases mem_insertCPE hb with rfl | hb
      · exact Nat.le_of_lt h
      · exact hd b hb
    · rw [if_neg h]
      refine List.pairwise_cons.2 ⟨fun b hb => ?_, hp⟩
      rcases List.mem_cons.1 hb with rfl | hb
      · exact Nat.le_of_not_lt h
      · exact Nat.le_trans (Nat.le_of_not_lt h) (hd b hb)

theorem sorted_sortCPEs : ∀ (l : List CPE),
    (sortCPEs l).Pairwise (fun a b => wcCount a ≤ wcCount b)
  | [] => List.Pairwise.nil
  | _ :: cs => pairwise_le_insertCPE (sorted_sortCPEs cs)

theorem filter_insertCPE (k : Nat) (c : CPE) :
    ∀ (m : List CPE),
      (insertCPE c m).filter (fun d => wcCount d == k) =
        if wcCount c == k then c :: m.filter (fun d => wcCount d == k)
        else m.filter (fun d => wcCount d == k)
  | [] => by
    by_cases h : wcCount c = k
    · rw [insertCPE, if_pos (by exact beq_iff_eq.2 h)]
      simp [List.filter_cons, beq_iff_eq.2 h]
    · rw [insertCPE, if_neg (by simp [h])]
      simp [List.filter_cons, beq_eq_false_iff_ne.2 h]
  | d :: ds => by
    rw [insertCPE]
    by_cases h : wcCount d < wcCount c
    · rw [if_pos h]
      by_cases hck : wcCount c = k
      · have hdk : (wcCount d == k) = false :=
          beq_eq_false_iff_ne.2 (hck ▸ Nat.ne_of_lt h)
        simp [List.filter_cons, hdk, filter_insertCPE k c ds, beq_iff_eq.2 hck]
      · have hcf : (wcCount c == k) = false := beq_eq_false_iff_ne.2 hck
        simp [List.filter_cons, filter_insertCPE k c ds, hcf]
    · rw [if_neg h]
      by_cases hck : wcCount c = k
      · simp [List.filter_cons, beq_iff_eq.2 hck]
      · have hcf : (wcCount c == k) = false := beq_eq_false_iff_ne.2 hck
        simp [List.filter_cons, hcf]

theorem filter_sortCPEs (k : Nat) :
    ∀ (l : List CPE),
      (sortCPEs l).filter (fun d => wcCount d == k) = l.filter (fun d => wcCount d == k)
  | [] => rfl
  | c :: cs => by
    rw [sortCPEs, filter_insertCPE k c (sortCPEs cs), filter_sortCPEs k cs]
    by_cases hck : wcCount c = k
    · rw [if_pos (beq_iff_eq.2 hck), List.filter_cons, if_pos (beq_iff_eq.2 hck)]
    · have hcf : (wcCount c == k) = false := beq_eq_false_iff_ne.2 hck
      rw [if_neg (by simp [hcf]), List.filter_cons, if_neg (by simp [hcf])]

/-! ### Helper lemmas about the output pipeline -/

theorem mem_survivors_of_mem_output {p : Package} {c : CPE}
    (h : c ∈ generatePackageCPEs p) : c ∈ survivors p := by
  rw [generatePackageCPEs] at h
  by_cases hp : candidateProducts p = []
  · rw [if_pos hp] at h
    exact absurd h (List.not_mem_nil c)
  · rw [if_neg hp] at h
    exact (perm_sortCPEs (survivors p)).mem_iff.1 h

theorem filters_false_of_mem_survivors {p : Package} {c : CPE} (h : c ∈ survivors p) :
    filterJiraClient c p = false ∧ filterJenkinsName c p = false := by
  rw [survivors, filterCPEs] at h
  have hf := (List.mem_filter.1 h).2
  rw [Bool.not_eq_true'] at hf
  rw [cpeFilters] at hf
  simp only [List.any_cons, List.any_nil, Bool.or_false, Bool.or_eq_false_iff] at hf
  exact hf

theorem mem_dedupCPEs_of_mem_survivors {p : Package} {c : CPE} (h : c ∈ survivors p) :
    c ∈ dedupCPEs p.version
      (genTriples (candidateProducts p) (candidateVendors p)
        (wfnAny :: candidateTargetSoftwareAttrs p)) [] := by
  rw [survivors, filterCPEs] at h
  exact (List.mem_filter.1 h).1

theorem output_nil_of_products_nil {p : Package} (h : candidateProducts p = []) :
    generatePackageCPEs p = [] := by
  rw [generatePackageCPEs, if_pos h]

theorem output_nil_of_vendors_nil {p : Package} (h : candidateVendors p = []) :
    generatePackageCPEs p = [] := by
  rw [generatePackageCPEs]
  by_cases hp : candidateProducts p = []
  · rw [if_pos hp]
  · rw [if_neg hp, survivors, h, genTriples_vendors_nil]
    rfl

theorem survivors_nil_of_products_nil {p : Package} (h : candidateProducts p = []) :
    survivors p = [] := by
  rw [survivors, h]
  rfl

/-! ### Helper lemmas about character scanning -/

theorem takeWhile_all_true {q : Char → Bool} :
    ∀ {l : Str}, (∀ c ∈ l, q c = true) → l.takeWhile q = l
  | [], _ => rfl
  | x :: xs, h => by
    rw [List.takeWhile_cons, h x (List.mem_cons_self _ _)]
    exact congrArg (x :: ·) (takeWhile_all_true fun c hc => h c (List.mem_cons_of_mem _ hc))

theorem dropWhile_all_true {q : Char → Bool} :
    ∀ {l : Str}, (∀ c ∈ l, q c = true) → l.dropWhile q = []
  | [], _ => rfl
  | x :: xs, h => by
    rw [List.dropWhile_cons, h x (List.mem_cons_self _ _)]
    exact dropWhile_all_true fun c hc => h c (List.mem_cons_of_mem _ hc)

theorem dropWhile_all_false {q : Char → Bool} :
    ∀ {l : Str}, (∀ c ∈ l, q c = false) → l.dropWhile q = l
  | [], _ => rfl
  | x :: xs, h => by
    rw [List.dropWhile_cons, h x (List.mem_cons_self _ _)]
    rfl

theorem trimBy_all_false {q : Char → Bool} {l : Str} (h : ∀ c ∈ l, q c = false) :
    trimBy q l = l := by
  rw [trimBy, dropWhile_all_false h,
    dropWhile_all_false (fun c hc => h c (List.mem_reverse.1 hc)), List.reverse_reverse]

theorem splitKeepSepAux_sepFree :
    ∀ (t acc : Str), (∀ c ∈ t, trimHyphenOrUnderscore c = false) →
      splitKeepSepAux acc t = if acc.reverse ++ t = [] then [] else [acc.reverse ++ t]
  | [], acc, _ => by
    rw [splitKeepSepAux, List.append_nil]
    by_cases ha : acc = []
    · rw [if_pos ha, if_pos (by rw [ha]; rfl)]
    · rw [if_neg ha, if_neg (by simp [ha])]
  | x :: xs, acc, h => by
    rw [splitKeepSepAux, if_neg (by simp [h x (List.mem_cons_self _ _)]),
      splitKeepSepAux_sepFree xs (x :: acc) (fun c hc => h c (List.mem_cons_of_mem _ hc))]
    rw [if_neg (by simp), if_neg (by simp)]
    simp

theorem hasAnyOfPrefixes_iff {s : Str} {pres : List Str} :
    hasAnyOfPrefixes s pres = true ↔ ∃ pre ∈ pres, ∃ t, pre ++ t = s := by
  rw [hasAnyOfPrefixes, List.any_eq_true]
  constructor
  · rintro ⟨pre, hmem, hpre⟩
    exact ⟨pre, hmem, List.isPrefixOf_iff_prefix.1 hpre⟩
  · rintro ⟨pre, hmem, hpre⟩
    exact ⟨pre, hmem, List.isPrefixOf_iff_prefix.2 hpre⟩

/-! ### Concrete packages used as test inputs -/

/-- A Ruby gem named "sentry-raven": its (type, name) pair has the override-table
alias "raven-ruby". -/
def sentryPkg : Package :=
  { name := str "sentry-raven", version := str "1.0", language := .ruby,
    type := .gemPkg, metadataType := .noMetadataType, metadata := .absent }

/-- A generic package whose name contains "client" and whose candidates include the
vendor "jira". -/
def jiraClientPkg : Package :=
  { name := str "jira-client", version := str "1.0", language := .unknownLang,
    type := .unknownType, metadataType := .noMetadataType, metadata := .absent }

/-- A Go module hosted on a generic host with two path segments. -/
def ghPkg : Package :=
  { name := str "github.com/foo/bar", version := str "1.0", language := .go,
    type := .goModulePkg, metadataType := .noMetadataType, metadata := .absent }

/-- A Go module hosted on "gopkg.in": non-empty product, empty vendor. -/
def yamlPkg : Package :=
  { name := str "gopkg.in/yaml.v2", version := str "2.4.0", language := .go,
    type := .goModulePkg, metadataType := .noMetadataType, metadata := .absent }

/-- A Go package with a bare, slash-free name: no product at all. -/
def justanamePkg : Package :=
  { name := str "justaname", version := str "1.0", language := .go,
    type := .goModulePkg, metadataType := .noMetadataType, metadata := .absent }

/-! ### The claims -/

/-- C3: a package with an empty resolved product-candidate list, and likewise one
with an empty resolved vendor-candidate list, yields an empty identifier list —
returned as a value (the function is total), never as a fault. -/
theorem empty_candidates_give_empty_output (p : Package) :
    (candidateProducts p = [] → generatePackageCPEs p = []) ∧
    (candidateVendors p = [] → generatePackageCPEs p = []) :=
  ⟨output_nil_of_products_nil, output_nil_of_vendors_nil⟩

/-- Witness for C3: a Go package with a bare slash-free name has no product
candidates, and a "gopkg.in" Go package has no vendor candidates; both generate no
identifiers. -/
theorem empty_candidates_give_empty_output_witness :
    generatePackageCPEs justanamePkg = [] ∧ generatePackageCPEs yamlPkg = [] :=
  ⟨(empty_candidates_give_empty_output justanamePkg).1 (by decide),
   (empty_candidates_give_empty_output yamlPkg).2 (by decide)⟩

/-- C4: every generated identifier carries the package version verbatim, and no two
identifiers in the output agree on all four of product, vendor, version and
target-software (the generation loop deduplicates on that composite key, keeping
the first occurrence). -/
theorem version_verbatim_and_tuple_dedup (p : Package) :
    (∀ c ∈ generatePackageCPEs p, c.version = p.version) ∧
    (generatePackageCPEs p).Pairwise (fun a b =>
      ¬(a.product = b.product ∧ a.vendor = b.vendor ∧ a.version = b.version ∧
        a.targetSW = b.targetSW)) := by
  by_cases hp : candidateProducts p = []
  · rw [output_nil_of_products_nil hp]
    exact ⟨fun c hc => absurd hc (List.not_mem_nil c), List.Pairwise.nil⟩
  · constructor
    · intro c hc
      exact version_of_mem_dedupCPEs (mem_dedupCPEs_of_mem_survivors
        (mem_survivors_of_mem_output hc))
    · have hkeys := pairwise_keys_dedupCPEs
        (v := p.version)
        (genTriples (candidateProducts p) (candidateVendors p)
          (wfnAny :: candidateTargetSoftwareAttrs p)) []
      have hsurv : (survivors p).Pairwise (fun a b => keyOf a ≠ keyOf b) := by
        rw [survivors, filterCPEs]
        exact List.Pairwise.sublist (List.filter_sublist _) hkeys
      have hsorted : (generatePackageCPEs p).Pairwise (fun a b => keyOf a ≠ keyOf b) := by
        rw [generatePackageCPEs, if_neg hp]
        exact ((perm_sortCPEs (survivors p)).pairwise_iff
          (by intro x y h he; exact h he.symm)).2 hsurv
      refine hsorted.imp ?_
      rintro a b hk ⟨h1, h2, h3, h4⟩
      exact hk (by rw [keyOf, keyOf, cpeKey, cpeKey, h1, h2, h3, h4])

/-- Witness for C4: the first identifier generated for a Go module carries its
version verbatim. -/
theorem version_verbatim_and_tuple_dedup_witness :
    (newCPE (str "bar") (str "foo") (str "1.0") (str "go")).version = str "1.0" :=
  (version_verbatim_and_tuple_dedup ghPkg).1 _ (by decide)

/-- C10: a Go-language package whose name has host "gopkg.in" gets no vendor from
the Go vendor helper, hence an empty vendor-candidate list, hence an empty
identifier list — no wildcard-vendor identifier is substituted. -/
theorem gopkg_in_yields_no_identifiers (p : Package) (h1 : p.language = .go)
    (h2 : goNameHost p.name = str "gopkg.in") :
    candidateVendorForGo p.name = [] ∧ candidateVendors p = [] ∧
    generatePackageCPEs p = [] := by
  have hv : candidateVendorForGo p.name = [] := by
    rw [candidateVendorForGo, h2, if_neg (by decide), if_neg (by decide), if_pos rfl]
  have hb : vendorBase p = [] := by
    rw [vendorBase, h1]
    rw [hv, if_pos rfl]
  have hvv : candidateVendors p = [] := by
    rw [candidateVendors, hb]
    rfl
  exact ⟨hv, hvv, output_nil_of_vendors_nil hvv⟩

/-- Witness for C10: "gopkg.in/yaml.v2" resolves a non-empty product candidate yet
produces no identifiers, because its vendor list is empty. -/
theorem gopkg_in_yields_no_identifiers_witness :
    candidateProducts yamlPkg ≠ [] ∧ candidateVendors yamlPkg = [] ∧
    generatePackageCPEs yamlPkg = [] :=
  ⟨by decide,
   (gopkg_in_yields_no_identifiers yamlPkg rfl (by decide)).2.1,
   (gopkg_in_yields_no_identifiers yamlPkg rfl (by decide)).2.2⟩

/-- The product post-augmentation pipeline as the spec words it (for comparison with
the source's `candidateProducts`): prepend the override aliases, normalise
separators on every candidate, expand sub-selections of every normalised candidate,
then deduplicate. -/
def specOrderedProducts (p : Package) : List Str :=
  removeDuplicateValues (generateAllSubSelections
    (normalizeAllSeparators (productOverrides p ++ baseProducts p)))

/-- Counterexample for C1: for the gem "sentry-raven" (override alias "raven-ruby")
the source's product list differs from the spec's pipeline; the alias appears
un-normalised (no "raven_ruby") and un-expanded (no "raven"), and the name-derived
candidates are never sub-selection-expanded (no "sentry"). -/
theorem product_pipeline_order_counterexample :
    candidateProducts sentryPkg ≠ specOrderedProducts sentryPkg ∧
    str "raven-ruby" ∈ candidateProducts sentryPkg ∧
    str "raven_ruby" ∉ candidateProducts sentryPkg ∧
    str "raven" ∉ candidateProducts sentryPkg ∧
    str "sentry" ∉ candidateProducts sentryPkg := by decide

/-- C1 as amended: product resolution normalises the augmented name-derived
candidates first, then prepends the override aliases unmodified (they are neither
normalised nor expanded), applies no sub-selection expansion at all, and finally
removes exact duplicates preserving first-seen order; every override alias appears
in the result. -/
theorem product_pipeline_order (p : Package) :
    candidateProducts p =
      removeDuplicateValues (productOverrides p ++ normalizeAllSeparators (baseProducts p)) ∧
    (candidateProducts p).Nodup ∧
    (∀ s ∈ candidateProducts p,
      s ∈ productOverrides p ∨ s ∈ normalizeAllSeparators (baseProducts p)) ∧
    (∀ a ∈ productOverrides p, a ∈ candidateProducts p) := by
  refine ⟨rfl, nodup_removeDuplicateValues _, ?_, ?_⟩
  · intro s hs
    exact List.mem_append.1 (mem_removeDuplicateValues.1 hs)
  · intro a ha
    exact mem_removeDuplicateValues.2 (List.mem_append_left _ ha)

/-- Witness for C1 (amended): the override alias "raven-ruby" is a product candidate
of the "sentry-raven" gem. -/
theorem product_pipeline_order_witness :
    str "raven-ruby" ∈ candidateProducts sentryPkg :=
  (product_pipeline_order sentryPkg).2.2.2 _ (by decide)

/-- The vendor candidates as the spec words them (for comparison with the source's
`candidateVendors`): start from the pre-normalisation, pre-override product base
list, then normalise, expand and deduplicate. -/
def specVendorCandidates (p : Package) : List Str :=
  removeDuplicateValues (generateAllSubSelections (normalizeAllSeparators (baseProducts p)))

/-- Counterexample for C2: for the gem "sentry-raven", the override alias
"raven-ruby" does appear among the vendor candidates although it does not arise
from the package name itself, and the vendor list differs from the spec's
pre-override base pipeline. -/
theorem vendor_base_counterexample :
    str "raven-ruby" ∈ candidateVendors sentryPkg ∧
    str "raven-ruby" ∉ specVendorCandidates sentryPkg ∧
    candidateVendors sentryPkg ≠ specVendorCandidates sentryPkg := by decide

/-- C2 as amended: vendor resolution starts from the full resolved product-candidate
list (after normalisation, override prepend and deduplication), so every override
alias flows into the vendor base; the result is the normalise-expand-deduplicate
pipeline over that base, and is duplicate-free. -/
theorem vendor_base_is_full_products (p : Package) (h : p.language ≠ .go) :
    candidateVendors p =
      removeDuplicateValues (generateAllSubSelections
        (normalizeAllSeparators (vendorBase p))) ∧
    (∀ a ∈ productOverrides p, a ∈ vendorBase p) ∧
    (candidateVendors p).Nodup := by
  refine ⟨rfl, ?_, nodup_removeDuplicateValues _⟩
  intro a ha
  have hmem : a ∈ candidateProducts p :=
    mem_removeDuplicateValues.2 (List.mem_append_left _ ha)
  rw [vendorBase]
  cases hl : p.language with
  | java =>
    by_cases hm : p.metadataType = .javaMetadataType
    · rw [if_pos hm]
      exact List.mem_append_left _ hmem
    · rw [if_neg hm]
      exact hmem
  | go => exact absurd hl h
  | javascript => exact hmem
  | ruby => exact hmem
  | python => exact hmem
  | unknownLang => exact hmem

/-- Witness for C2 (amended): applied to the "sentry-raven" gem, whose override
alias is in the vendor base. -/
theorem vendor_base_is_full_products_witness :
    str "raven-ruby" ∈ vendorBase sentryPkg :=
  (vendor_base_is_full_products sentryPkg (by decide)).2.1 _ (by decide)

/-- C8: an identifier with product "jira" and vendor in {wildcard, "jira",
"atlassian"} never survives for a package whose name contains "client"
(case-insensitively); an identifier with product "jenkins" and vendor in
{wildcard, "jenkins", "cloudbees"} never survives for a package whose name does not
contain "jenkins"; and a product-"jira" identifier with any other vendor passes the
filter pipeline. -/
theorem exclusion_filters_enforced :
    (∀ (p : Package) (c : CPE), c ∈ generatePackageCPEs p →
      substrIn (lowerStr p.name) (str "client") = true →
      ¬(c.product = str "jira" ∧
        (c.vendor = wfnAny ∨ c.vendor = str "jira" ∨ c.vendor = str "atlassian"))) ∧
    (∀ (p : Package) (c : CPE), c ∈ generatePackageCPEs p →
      substrIn (lowerStr p.name) (str "jenkins") = false →
      ¬(c.product = str "jenkins" ∧
        (c.vendor = wfnAny ∨ c.vendor = str "jenkins" ∨ c.vendor = str "cloudbees"))) ∧
    (∀ (p : Package) (cpes : List CPE) (c : CPE), c ∈ cpes →
      c.product = str "jira" → c.vendor ≠ wfnAny → c.vendor ≠ str "jira" →
      c.vendor ≠ str "atlassian" → c ∈ filterCPEs cpes p cpeFilters) := by
  refine ⟨?_, ?_, ?_⟩
  · intro p c hc hname
    rintro ⟨hprod, hv⟩
    have hf := (filters_false_of_mem_survivors (mem_survivors_of_mem_output hc)).1
    rw [filterJiraClient, if_pos ⟨hprod, hname⟩, if_pos hv] at hf
    exact absurd hf (by decide)
  · intro p c hc hname
    rintro ⟨hprod, hv⟩
    have hf := (filters_false_of_mem_survivors (mem_survivors_of_mem_output hc)).2
    rw [filterJenkinsName, if_pos ⟨hprod, by rw [hname]; rfl⟩, if_pos hv] at hf
    exact absurd hf (by decide)
  · intro p cpes c hc hprod hv1 hv2 hv3
    rw [filterCPEs]
    refine List.mem_filter.2 ⟨hc, ?_⟩
    have h1 : filterJiraClient c p = false := by
      rw [filterJiraClient]
      by_cases ho : c.product = str "jira" ∧ substrIn (lowerStr p.name) (str "client") = true
      · rw [if_pos ho, if_neg (by rintro (h | h | h) <;> [exact hv1 h; exact hv2 h; exact hv3 h])]
      · rw [if_neg ho]
    have h2 : filterJenkinsName c p = false := by
      rw [filterJenkinsName]
      have : ¬(c.product = str "jenkins" ∧
          (!(substrIn (lowerStr p.name) (str "jenkins"))) = true) := by
        rintro ⟨h, _⟩
        rw [hprod] at h
        exact absurd h (by decide)
      rw [if_neg this]
    rw [cpeFilters]
    simp [h1, h2]

/-- Witness for C8: the package "jira-client" keeps its product-"jira-client",
vendor-"jira" identifier (the vetoed combination never had product "jira" here),
and a product-"jira" identifier with vendor "acme" passes the filters. -/
theorem exclusion_filters_enforced_witness :
    ¬((newCPE (str "jira-client") (str "jira") (str "1.0") wfnAny).product = str "jira" ∧
      ((newCPE (str "jira-client") (str "jira") (str "1.0") wfnAny).vendor = wfnAny ∨
       (newCPE (str "jira-client") (str "jira") (str "1.0") wfnAny).vendor = str "jira" ∨
       (newCPE (str "jira-client") (str "jira") (str "1.0") wfnAny).vendor = str "atlassian")) ∧
    newCPE (str "jira") (str "acme") (str "1.0") wfnAny ∈
      filterCPEs [newCPE (str "jira") (str "acme") (str "1.0") wfnAny] jiraClientPkg cpeFilters :=
  ⟨exclusion_filters_enforced.1 jiraClientPkg _ (by decide) (by decide),
   exclusion_filters_enforced.2.2 jiraClientPkg _ _ (by decide) rfl (by decide) (by decide)
     (by decide)⟩

/-- Counterexample for C5: the empty token is separator-free yet expands to the
empty list, not to the one-element list containing it; and for "a--b" the sub-token
between the two hyphens trims to empty yet expansion does not terminate — the
remaining input "b" is still processed, producing "a-b". -/
theorem sub_selection_expansion_counterexample :
    generateSubSelections (str "") = [] ∧
    generateSubSelections (str "a--b") = [str "a", str "a-b"] ∧
    generateSubSelections (str "a--b") ≠ [str "a"] := by decide

/-- C5 as amended: sub-selection expansion is prefix-consistent — "a-b-c" expands to
exactly ["a", "a-b", "a-b-c"] and a non-empty separator-free token expands to the
one-element list containing it (the empty token expands to the empty list) — and a
raw sub-token that becomes empty after trimming contributes no result but does not
terminate expansion: the remaining input is still processed, as "a--b" shows. -/
theorem sub_selection_expansion (t : Str)
    (h : ∀ c ∈ t, trimHyphenOrUnderscore c = false) :
    generateSubSelections (str "a-b-c") = [str "a", str "a-b", str "a-b-c"] ∧
    generateSubSelections (str "a--b") = [str "a", str "a-b"] ∧
    generateSubSelections [] = [] ∧
    (t ≠ [] → generateSubSelections t = [t]) := by
  refine ⟨by decide, by decide, by decide, ?_⟩
  intro ht
  rw [generateSubSelections, splitKeepSepAux_sepFree t [] h]
  rw [List.reverse_nil, List.nil_append, if_neg ht]
  rw [subSelGo, if_neg ht]
  simp [trimBy_all_false h, if_neg ht, subSelGo]

/-- Witness for C5 (amended): a separator-free token expands to itself. -/
theorem sub_selection_expansion_witness :
    generateSubSelections (str "abc") = [str "abc"] :=
  (sub_selection_expansion (str "abc") (by decide)).2.2.2 (by decide)

/-- Counterexample for C6: "golang.org" is a bare name with no slash, yet the Go
vendor helper returns "golang", not the empty string. -/
theorem go_module_path_counterexample :
    ('/' ∉ str "golang.org") ∧
    candidateVendorForGo (str "golang.org") = str "golang" ∧
    candidateVendorForGo (str "golang.org") ≠ [] := by decide

/-- C6 as amended: the three example module paths parse as the claim states, and a
bare name with no slash always yields an empty product; it also yields an empty
vendor unless the name itself is one of the special hosts — "golang.org" yields
vendor "golang" and "google.golang.org" yields vendor "google". -/
theorem go_module_path_parsing (name : Str) (h : '/' ∉ name) :
    candidateProductForGo name = [] ∧
    (name ≠ str "golang.org" → name ≠ str "google.golang.org" →
      candidateVendorForGo name = []) ∧
    candidateVendorForGo (str "golang.org") = str "golang" ∧
    candidateVendorForGo (str "google.golang.org") = str "google" ∧
    candidateProductForGo (str "golang.org/x/net") = str "x/net" ∧
    candidateVendorForGo (str "golang.org/x/net") = str "golang" ∧
    candidateProductForGo (str "google.golang.org/grpc") = str "grpc" ∧
    candidateVendorForGo (str "google.golang.org/grpc") = str "google" ∧
    candidateProductForGo (str "github.com/foo/bar") = str "bar" ∧
    candidateVendorForGo (str "github.com/foo/bar") = str "foo" := by
  have hall : ∀ c ∈ name, (fun c => decide (c ≠ '/')) c = true := by
    intro c hc
    exact decide_eq_true (fun he => h (he ▸ hc))
  have hhost : goNameHost name = name := by
    rw [goNameHost]
    exact takeWhile_all_true hall
  have hpath : goNamePath name = [] := by
    rw [goNamePath]
    exact dropWhile_all_true hall
  have hclean : goCleanPath name = [] := by
    rw [goCleanPath, hpath]
    rfl
  have helems : goPathElements name = [[]] := by
    rw [goPathElements, hclean]
    rfl
  refine ⟨?_, ?_, by decide, by decide, by decide, by decide, by decide, by decide,
    by decide, by decide⟩
  · rw [candidateProductForGo, hhost, hclean, helems]
    by_cases h1 : name = str "golang.org" ∨ name = str "gopkg.in"
    · rw [if_pos h1]
    · rw [if_neg h1]
      by_cases h2 : name = str "google.golang.org"
      · rw [if_pos h2]
        rfl
      · rw [if_neg h2, if_pos (by decide)]
  · intro hn1 hn2
    rw [candidateVendorForGo, hhost, helems]
    rw [if_neg hn2, if_neg hn1]
    by_cases h3 : name = str "gopkg.in"
    · rw [if_pos h3]
    · rw [if_neg h3, if_pos (by decide)]

/-- Witness for C6 (amended): the bare name "justaname" yields empty product and
empty vendor. -/
theorem go_module_path_parsing_witness :
    candidateProductForGo (str "justaname") = [] ∧
    candidateVendorForGo (str "justaname") = [] :=
  ⟨(go_module_path_parsing (str "justaname") (by decide)).1,
   (go_module_path_parsing (str "justaname") (by decide)).2.1 (by decide) (by decide)⟩

/-- The rejection condition of Java group-identifier derivation, as the amended
claim states it: empty, or an extension of an excluded plugin-framework namespace,
or not starting with "com" or "org", or fewer than 3 dot-separated fields. -/
def groupIDRejected (gid : Str) : Prop :=
  gid = [] ∨ (∃ e ∈ excludedGroupIDs, ∃ t, e ++ t = gid) ∨
    ((¬∃ t, str "com" ++ t = gid) ∧ (¬∃ t, str "org" ++ t = gid)) ∨
    (splitOnChar '.' gid).length < 3

/-- Counterexample for C7: "com.atlassian.jira.plugins.crowd" is not equal to any
entry of the exclusion list, starts with "com" and has five dot-fields, yet is
rejected (the code matches the exclusion list by prefix, not equality); and
"org.." satisfies none of the claim's rejection conditions yet also yields no
product and no vendor (its 3rd and 2nd dot-fields are empty), refuting
"exactly when". -/
theorem java_group_id_counterexample :
    productAndVendorFromGroupID (str "com.atlassian.jira.plugins.crowd") = ([], []) ∧
    str "com.atlassian.jira.plugins.crowd" ∉ excludedGroupIDs ∧
    hasAnyOfPrefixes (str "com.atlassian.jira.plugins.crowd") [str "com", str "org"] = true ∧
    (splitOnChar '.' (str "com.atlassian.jira.plugins.crowd")).length = 5 ∧
    productAndVendorFromGroupID (str "org..") = ([], []) ∧
    (splitOnChar '.' (str "org..")).length = 3 := by decide

/-- C7 as amended: derivation yields no product and no vendor whenever the group
identifier is empty, extends an excluded plugin-framework namespace, does not start
with "com" or "org", or has fewer than 3 dot-separated fields; otherwise it yields
the 3rd dot-field as product and the 2nd as vendor (which may themselves be empty):
"org.apache.commons" gives ("commons", "apache") and "com.x" gives nothing. -/
theorem java_group_id_derivation (gid : Str) :
    (groupIDRejected gid → productAndVendorFromGroupID gid = ([], [])) ∧
    (¬groupIDRejected gid →
      productAndVendorFromGroupID gid =
        ((splitOnChar '.' gid).getD 2 [], (splitOnChar '.' gid).getD 1 [])) ∧
    productAndVendorFromGroupID (str "org.apache.commons") = (str "commons", str "apache") ∧
    productAndVendorFromGroupID (str "com.x") = ([], []) := by
  have hpv0 : shouldConsiderGroupID gid = false → productAndVendorFromGroupID gid = ([], []) := by
    intro h
    rw [productAndVendorFromGroupID, h]
    rfl
  have hcomorg : hasAnyOfPrefixes gid [str "com", str "org"] = true ↔
      (∃ t, str "com" ++ t = gid) ∨ (∃ t, str "org" ++ t = gid) := by
    rw [hasAnyOfPrefixes_iff]
    constructor
    · rintro ⟨pre, hmem, ht⟩
      rcases List.mem_cons.1 hmem with rfl | hmem2
      · exact Or.inl ht
      · rcases List.mem_cons.1 hmem2 with rfl | hmem3
        · exact Or.inr ht
        · exact absurd hmem3 (List.not_mem_nil _)
    · rintro (ht | ht)
      · exact ⟨_, List.mem_cons_self _ _, ht⟩
      · exact ⟨_, List.mem_cons_of_mem _ (List.mem_cons_self _ _), ht⟩
  refine ⟨?_, ?_, by decide, by decide⟩
  · intro hrej
    rcases hrej with h0 | hex | hco | hlen
    · exact hpv0 (by rw [shouldConsiderGroupID, if_pos h0])
    · by_cases h0 : gid = []
      · exact hpv0 (by rw [shouldConsiderGroupID, if_pos h0])
      · refine hpv0 ?_
        rw [shouldConsiderGroupID, if_neg h0, hasAnyOfPrefixes_iff.2 hex]
        rfl
    · cases hsc : shouldConsiderGroupID gid
      · exact hpv0 hsc
      · have hfa : hasAnyOfPrefixes gid [str "com", str "org"] = false := by
          cases hval : hasAnyOfPrefixes gid [str "com", str "org"]
          · rfl
          · rcases hcomorg.1 hval with ht | ht
            · exact absurd ht hco.1
            · exact absurd ht hco.2
        rw [productAndVendorFromGroupID, hsc, hfa]
        rfl
    · cases hsc : shouldConsiderGroupID gid
      · exact hpv0 hsc
      · cases hval : hasAnyOfPrefixes gid [str "com", str "org"]
        · rw [productAndVendorFromGroupID, hsc, hval]
          rfl
        · rw [productAndVendorFromGroupID, hsc, hval]
          simp [hlen]
  · intro hnrej
    have h0 : gid ≠ [] := fun h => hnrej (Or.inl h)
    have hexcl : hasAnyOfPrefixes gid excludedGroupIDs = false := by
      cases hval : hasAnyOfPrefixes gid excludedGroupIDs
      · rfl
      · exact absurd (hasAnyOfPrefixes_iff.1 hval)
          (fun hex => hnrej (Or.inr (Or.inl hex)))
    have hco : hasAnyOfPrefixes gid [str "com", str "org"] = true := by
      cases hval : hasAnyOfPrefixes gid [str "com", str "org"]
      · exfalso
        apply hnrej
        refine Or.inr (Or.inr (Or.inl ⟨?_, ?_⟩))
        · intro ht
          rw [hcomorg.2 (Or.inl ht)] at hval
          exact Bool.noConfusion hval
        · intro ht
          rw [hcomorg.2 (Or.inr ht)] at hval
          exact Bool.noConfusion hval
      · rfl
    have hlen : ¬((splitOnChar '.' gid).length < 3) :=
      fun hl => hnrej (Or.inr (Or.inr (Or.inr hl)))
    have hsc : shouldConsiderGroupID gid = true := by
      rw [shouldConsiderGroupID, if_neg h0, hexcl]
      rfl
    rw [productAndVendorFromGroupID, hsc, hco]
    simp [hlen]

/-- Witness for C7 (amended): "com.x" has fewer than 3 dot-fields, so derivation
rejects it. -/
theorem java_group_id_derivation_witness :
    productAndVendorFromGroupID (str "com.x") = ([], []) :=
  (java_group_id_derivation (str "com.x")).1 (Or.inr (Or.inr (Or.inr (by decide))))

/-- C9: the specificity sort is stable — for every package and every specificity
level, the surviving identifiers of that specificity appear in the output exactly in
the insertion order established during generation — and an identifier with a
non-wildcard target-software field never sorts after the otherwise-identical
identifier whose target-software is the wildcard. -/
theorem specificity_sort_stable :
    (∀ (p : Package) (k : Nat),
      (generatePackageCPEs p).filter (fun c => wcCount c == k) =
        (survivors p).filter (fun c => wcCount c == k)) ∧
    (∀ (p : Package) (i j : Nat) (c₁ c₂ : CPE),
      (generatePackageCPEs p)[i]? = some c₁ →
      (generatePackageCPEs p)[j]? = some c₂ →
      c₁.product = c₂.product → c₁.vendor = c₂.vendor → c₁.version = c₂.version →
      c₁.targetSW ≠ wfnAny → c₂.targetSW = wfnAny → i < j) := by
  constructor
  · intro p k
    by_cases hp : candidateProducts p = []
    · rw [output_nil_of_products_nil hp, survivors_nil_of_products_nil hp]
    · rw [generatePackageCPEs, if_neg hp, filter_sortCPEs]
  · intro p i j c₁ c₂ hi hj hprod hvend hver ht1 ht2
    have hsorted : (generatePackageCPEs p).Pairwise (fun a b => wcCount a ≤ wcCount b) := by
      rw [generatePackageCPEs]
      by_cases hp : candidateProducts p = []
      · rw [if_pos hp]
        exact List.Pairwise.nil
      · rw [if_neg hp]
        exact sorted_sortCPEs _
    rcases List.getElem?_eq_some_iff.1 hi with ⟨hilt, hie⟩
    rcases List.getElem?_eq_some_iff.1 hj with ⟨hjlt, hje⟩
    have hcount : wcCount c₁ < wcCount c₂ := by
      rw [wcCount, wcCount, hprod, hvend, hver]
      have h1 : (if c₁.targetSW = wfnAny then 1 else 0) = 0 := if_neg ht1
      have h2 : (if c₂.targetSW = wfnAny then 1 else 0) = 1 := if_pos ht2
      omega
    have hpg := List.pairwise_iff_getElem.1 hsorted
    rcases Nat.lt_trichotomy i j with h | h | h
    · exact h
    · exfalso
      subst h
      have hc : c₁ = c₂ := hie.symm.trans hje
      exact ht1 (hc ▸ ht2)
    · exfalso
      have hle := hpg j i hjlt hilt h
      rw [hie, hje] at hle
      omega

/-- Witness for C9: for a Go module the identifier with target-software "go"
(specificity count 0) sorts before the otherwise-identical wildcard one
(position 0 versus position 2), and the stability equation holds at level 0. -/
theorem specificity_sort_stable_witness :
    (generatePackageCPEs ghPkg).filter (fun c => wcCount c == 0) =
      (survivors ghPkg).filter (fun c => wcCount c == 0) ∧ (0 : Nat) < 2 :=
  ⟨specificity_sort_stable.1 ghPkg 0,
   specificity_sort_stable.2 ghPkg 0 2
     (newCPE (str "bar") (str "foo") (str "1.0") (str "go"))
     (newCPE (str "bar") (str "foo") (str "1.0") wfnAny)
     (by decide) (by decide) rfl rfl rfl (by decide) rfl⟩

end SyftCpe
